import Mathlib

/-!
Shallow embedding of the OCR price-tag extraction core
(`src/backend/db.js`: `detectCurrency`, `extractPrice`, `detectPromo`,
`extractDiscount`, `extractBarcode`, `extractUnit`, `parseOcrResult`)
and of the product price-history aggregator
(`src/unnamed/part_006`: `getCurrentPrice`, `getMinPrice`, `getMaxPrice`,
`getAvgPrice`).

JavaScript regular expressions are embedded as a small backtracking
matcher (`reMatch`) over an explicit pattern AST (`RE`), with JS
semantics: leftmost match, greedy quantifiers with backtracking,
left-biased alternation, `\b` word boundaries over the ASCII word-char
set, single-character negative lookahead, and `/i` via simple case
folding on the character classes. Numeric values are modelled as `ℚ`
(the numbers involved are exact decimals).
-/

/-- Simple case folding for the characters appearing in the source
patterns: ASCII letters and the Russian Cyrillic block, matching the
behaviour of the JS `/i` flag on these inputs. -/
def foldCase (c : Char) : Char :=
  if 'A' ≤ c ∧ c ≤ 'Z' then Char.ofNat (c.toNat + 32)
  else if 'А' ≤ c ∧ c ≤ 'Я' then Char.ofNat (c.toNat + 32)
  else if c = 'Ё' then 'ё'
  else c

/-- The JS `\s` character class. -/
def isWS (c : Char) : Bool :=
  c == ' ' || c == '\t' || c == '\n' || c == '\r' ||
  c == Char.ofNat 0x0B || c == Char.ofNat 0x0C ||
  c == Char.ofNat 0xA0 || c == Char.ofNat 0x1680 ||
  (Char.ofNat 0x2000 ≤ c && c ≤ Char.ofNat 0x200A) ||
  c == Char.ofNat 0x2028 || c == Char.ofNat 0x2029 ||
  c == Char.ofNat 0x202F || c == Char.ofNat 0x205F ||
  c == Char.ofNat 0x3000 || c == Char.ofNat 0xFEFF

/-- The JS `\w` word-character class (`[A-Za-z0-9_]`), used by `\b`. -/
def isWordChar (c : Char) : Bool :=
  (('A' ≤ c && c ≤ 'Z') || ('a' ≤ c && c ≤ 'z') || c.isDigit || c == '_')

/-- The JS `.` class: any character except line terminators. -/
def isDotChar (c : Char) : Bool :=
  !(c == '\n' || c == '\r' || c == Char.ofNat 0x2028 || c == Char.ofNat 0x2029)

/-- Decimal digits to a natural number (the JS `parseInt` on a `\d+`
capture). -/
def digitsToNat (cs : List Char) : ℕ :=
  cs.foldl (fun n c => 10 * n + (c.toNat - 48)) 0

/-- The JS `parseFloat(str.replace(',', '.'))` applied to a capture of
shape digits, optionally a `.` or `,`, then digits. -/
def parseDec (cs : List Char) : ℚ :=
  let intDigits := cs.takeWhile Char.isDigit
  let rest := cs.dropWhile Char.isDigit
  match rest with
  | c :: fs =>
    if c = '.' ∨ c = ',' then
      let fd := fs.takeWhile Char.isDigit
      (digitsToNat intDigits : ℚ) + (digitsToNat fd : ℚ) / (10 : ℚ) ^ fd.length
    else (digitsToNat intDigits : ℚ)
  | [] => (digitsToNat intDigits : ℚ)

/-- Pattern AST for the regular expressions appearing in the source. -/
inductive RE where
  | eps : RE
  | cls : (Char → Bool) → RE
  | cat : RE → RE → RE
  | alt : RE → RE → RE
  | star : RE → RE
  | opt : RE → RE
  | group : RE → RE
  | wordB : RE
  | nla : (Char → Bool) → RE

/-- Result of a match attempt: character preceding the rest of the
input, the remaining input, and the content of capture group 1. -/
abbrev MRes := Option Char × List Char × Option (List Char)

/-- Syntactic size of a pattern, used to budget the matcher's fuel. -/
def RE.size : RE → Nat
  | .eps => 1
  | .cls _ => 1
  | .cat a b => a.size + b.size + 1
  | .alt a b => a.size + b.size + 1
  | .star a => a.size + 1
  | .opt a => a.size + 1
  | .group a => a.size + 1
  | .wordB => 1
  | .nla _ => 1

/-- Backtracking matcher in continuation-passing style, mirroring JS
regex semantics (greedy `*`/`?`/alternation with full backtracking).
The recursion is structural on `fuel`, consuming one unit per step;
nesting depth is bounded by the pattern size plus the input length (each
`star` body of the embedded patterns consumes at least one character),
so the fuel supplied by `reFuel` is never exhausted on them. -/
def reMatch : Nat → RE → Option Char → List Char → Option (List Char) →
    (Option Char → List Char → Option (List Char) → Option MRes) → Option MRes
  | 0, _, _, _, _, _ => none
  | fuel + 1, r, prev, s, cap, k =>
    match r with
    | .eps => k prev s cap
    | .cls p =>
      match s with
      | [] => none
      | c :: rest => if p c then k (some c) rest cap else none
    | .cat a b => reMatch fuel a prev s cap fun p1 s1 c1 => reMatch fuel b p1 s1 c1 k
    | .alt a b => (reMatch fuel a prev s cap k) <|> (reMatch fuel b prev s cap k)
    | .opt a => (reMatch fuel a prev s cap k) <|> k prev s cap
    | .star a =>
      (reMatch fuel a prev s cap fun p1 s1 c1 => reMatch fuel (.star a) p1 s1 c1 k) <|>
        k prev s cap
    | .group a =>
      reMatch fuel a prev s cap fun p1 s1 _ => k p1 s1 (some (s.take (s.length - s1.length)))
    | .wordB =>
      let before := match prev with | none => false | some c => isWordChar c
      let after := match s with | [] => false | c :: _ => isWordChar c
      if before != after then k prev s cap else none
    | .nla p =>
      match s with
      | [] => k prev s cap
      | c :: _ => if p c then none else k prev s cap

/-- Ample fuel for matching `r` against `s`. -/
def reFuel (r : RE) (s : List Char) : Nat := (s.length + 2) * (RE.size r + 2)

/-- Leftmost match: try the pattern at each successive start position
(the non-anchored JS search). -/
def reSearch (fuel : Nat) (r : RE) (prev : Option Char) (s : List Char) : Option MRes :=
  match reMatch fuel r prev s none (fun p rest c => some (p, rest, c)) with
  | some res => some res
  | none =>
    match s with
    | [] => none
    | c :: rest => reSearch fuel r (some c) rest

/-- The JS `pattern.test(text)`. -/
def reTest (r : RE) (s : List Char) : Bool :=
  (reSearch (reFuel r s) r none s).isSome

/-- One `exec` step returning capture group 1 (`match[1]`). -/
def matchCapture (r : RE) (s : List Char) : Option (List Char) :=
  match reSearch (reFuel r s) r none s with
  | some (_, _, some c) => some c
  | _ => none

/-- The `while ((match = pattern.exec(text)) !== null)` loop of a `/g`
regex, collecting `match[1]` of every successive match (each match of
the embedded patterns consumes at least one character, so the fuel is
never exhausted). -/
def gExecAux (fuel : Nat) (r : RE) (prev : Option Char) (s : List Char) : List (List Char) :=
  match fuel with
  | 0 => []
  | fuel + 1 =>
    match reSearch (reFuel r s) r prev s with
    | none => []
    | some (p, rest, c) => c.getD [] :: gExecAux fuel r p rest

/-- All group-1 captures of a global regex over the text. -/
def gExec (r : RE) (s : List Char) : List (List Char) :=
  gExecAux (s.length + 1) r none s

/-- A case-insensitive literal (each source pattern letter under the
`/i` flag). -/
def litCI (s : String) : RE :=
  s.data.foldr (fun c r => RE.cat (RE.cls fun x => foldCase x == foldCase c) r) RE.eps

/-- Sequencing a list of patterns. -/
def reSeq (l : List RE) : RE := l.foldr RE.cat RE.eps

/-- Left-biased alternation of a list of patterns (JS `|`). -/
def reAlts (l : List RE) : RE :=
  match l with
  | [] => RE.eps
  | [r] => r
  | r :: rs => RE.alt r (reAlts rs)

/-- `\d` -/
def reDigit : RE := RE.cls Char.isDigit

/-- `\s` -/
def reWS : RE := RE.cls isWS

/-- `.` -/
def reDot : RE := RE.cls isDotChar

/-- `x+` -/
def rePlus (r : RE) : RE := RE.cat r (RE.star r)

/-- `x{n}` -/
def reRep (n : Nat) (r : RE) : RE := reSeq (List.replicate n r)

/-! ### `detectCurrency` -/

/-- One entry of the `currencyPatterns` rule table. -/
structure CurrencyRule where
  pattern : RE
  currency : String
  symbol : String

/-- The `currencyPatterns` table of `detectCurrency`, in source order. -/
def currencyPatterns : List CurrencyRule :=
  [ ⟨reAlts [litCI "руб", litCI "₽", litCI "рубл", litCI "RUB"], "RUB", "₽"⟩,
    ⟨reAlts [litCI "$", litCI "USD", litCI "долл"], "USD", "$"⟩,
    ⟨reAlts [litCI "€", litCI "EUR", litCI "евро"], "EUR", "€"⟩,
    ⟨reAlts [litCI "₸", litCI "KZT", litCI "тенге"], "KZT", "₸"⟩,
    ⟨reAlts [litCI "₴", litCI "UAH", litCI "грн"], "UAH", "₴"⟩,
    ⟨reAlts [litCI "Br", litCI "BYN", litCI "бел"], "BYN", "Br"⟩ ]

/-- `detectCurrency`: first rule whose pattern matches; default `RUB`/`₽`. -/
def detectCurrency (text : String) : String × String :=
  match currencyPatterns.find? (fun r => reTest r.pattern text.data) with
  | some r => (r.currency, r.symbol)
  | none => ("RUB", "₽")

/-! ### `extractPrice` -/

/-- The currency-token alternation `(?:руб|₽|р\.?|RUB|\$|€)` shared by the
first two price patterns. -/
def curTokenAlt : RE :=
  reAlts [litCI "руб", litCI "₽", RE.cat (litCI "р") (RE.opt (litCI ".")),
          litCI "RUB", litCI "$", litCI "€"]

/-- `/(\d+[\.,]\d{2})\s*(?:руб|₽|р\.?|RUB|\$|€)?/gi` -/
def pricePat1 : RE :=
  reSeq [RE.group (reSeq [rePlus reDigit, RE.cls (fun c => c == '.' || c == ','),
                          reDigit, reDigit]),
         RE.star reWS, RE.opt curTokenAlt]

/-- `/(\d+)\s*(?:руб|₽|р\.?|RUB|\$|€)/gi` -/
def pricePat2 : RE :=
  reSeq [RE.group (rePlus reDigit), RE.star reWS, curTokenAlt]

/-- `/цена[:\s]*(\d+[\.,]?\d*)/gi` -/
def pricePat3 : RE :=
  reSeq [litCI "цена", RE.star (RE.cls fun c => c == ':' || isWS c),
         RE.group (reSeq [rePlus reDigit, RE.opt (RE.cls fun c => c == '.' || c == ','),
                          RE.star reDigit])]

/-- `/стоимость[:\s]*(\d+[\.,]?\d*)/gi` -/
def pricePat4 : RE :=
  reSeq [litCI "стоимость", RE.star (RE.cls fun c => c == ':' || isWS c),
         RE.group (reSeq [rePlus reDigit, RE.opt (RE.cls fun c => c == '.' || c == ','),
                          RE.star reDigit])]

/-- The `pricePatterns` array of `extractPrice`, in source order. -/
def pricePatterns : List RE := [pricePat1, pricePat2, pricePat3, pricePat4]

/-- The `prices` array accumulated by the scanning loops of
`extractPrice`: every capture of every pattern, parsed, kept only when
the value lies in `(0, 1000000)`. -/
def priceCandidates (text : String) : List ℚ :=
  pricePatterns.flatMap fun pat =>
    ((gExec pat text.data).map parseDec).filter fun price =>
      decide (0 < price ∧ price < 1000000)

/-- `extractPrice`: the accumulated candidates, deduplicated
(`[...new Set(prices)]`) and sorted ascending (`.sort((a, b) => a - b)`). -/
def extractPrice (text : String) : List ℚ :=
  (priceCandidates text).dedup.insertionSort (· ≤ ·)

/-! ### `detectPromo` -/

/-- One entry of the `promoPatterns` rule table. -/
structure PromoRule where
  pattern : RE
  type : String

/-- The `promoPatterns` table of `detectPromo`, in source order. -/
def promoPatterns : List PromoRule :=
  [ ⟨RE.cat (litCI "акци") (RE.cls fun c => foldCase c == 'я' || foldCase c == 'и'), "акция"⟩,
    ⟨RE.cat (litCI "скидк") (RE.cls fun c => foldCase c == 'а' || foldCase c == 'и'), "скидка"⟩,
    ⟨litCI "распродаж", "распродажа"⟩,
    ⟨reSeq [litCI "специальн", RE.star reDot, litCI "цен"], "спеццена"⟩,
    ⟨litCI "выгодн", "выгодная цена"⟩,
    ⟨litCI "sale", "sale"⟩,
    ⟨litCI "промо", "промо"⟩,
    ⟨reSeq [litCI "-", RE.star reWS, rePlus reDigit, RE.star reWS, litCI "%"], "скидка"⟩,
    ⟨reSeq [rePlus reDigit, RE.star reWS, litCI "%", RE.star reWS,
            reAlts [litCI "скидк", litCI "off"]], "скидка"⟩,
    ⟨reSeq [litCI "старая", RE.star reWS, litCI "цена"], "скидка"⟩,
    ⟨litCI "было", "скидка"⟩,
    ⟨reSeq [litCI "красн", RE.star reDot, litCI "цен"], "красная цена"⟩,
    ⟨RE.alt (reSeq [litCI "жёлт", RE.star reDot, litCI "цен"])
            (reSeq [litCI "желт", RE.star reDot, litCI "цен"]), "желтая цена"⟩ ]

/-- `detectPromo`: first rule whose pattern matches wins; otherwise
`isPromo = false`, `promoType = null`. -/
def detectPromo (text : String) : Bool × Option String :=
  match promoPatterns.find? (fun r => reTest r.pattern text.data) with
  | some r => (true, some r.type)
  | none => (false, none)

/-! ### `extractDiscount` -/

/-- The global pattern `-?\s*(\d+)\s*%`. -/
def discountPattern : RE :=
  reSeq [RE.opt (litCI "-"), RE.star reWS, RE.group (rePlus reDigit),
         RE.star reWS, litCI "%"]

/-- The `discounts` array accumulated by `extractDiscount`: every
`parseInt(match[1])` with `0 < discount ≤ 99`. -/
def discountCandidates (text : String) : List ℕ :=
  ((gExec discountPattern text.data).map digitsToNat).filter fun d =>
    decide (0 < d ∧ d ≤ 99)

/-- `extractDiscount`: `Math.max(...discounts)` over the accumulated
collection, or `null` when it is empty. -/
def extractDiscount (text : String) : Option ℕ :=
  match discountCandidates text with
  | [] => none
  | d :: ds => some (ds.foldl max d)

/-! ### `extractBarcode` -/

/-- `/\b(\d{13})\b/` -/
def ean13Re : RE := reSeq [RE.wordB, RE.group (reRep 13 reDigit), RE.wordB]

/-- `/\b(\d{8})\b/` -/
def ean8Re : RE := reSeq [RE.wordB, RE.group (reRep 8 reDigit), RE.wordB]

/-- `/\b(\d{12})\b/` -/
def upcRe : RE := reSeq [RE.wordB, RE.group (reRep 12 reDigit), RE.wordB]

/-- `extractBarcode`: EAN-13 first, then EAN-8, then UPC-A; `null` when
none of the three patterns matches. -/
def extractBarcode (text : String) : Option String :=
  match matchCapture ean13Re text.data with
  | some m => some (String.mk m)
  | none =>
    match matchCapture ean8Re text.data with
    | some m => some (String.mk m)
    | none =>
      match matchCapture upcRe text.data with
      | some m => some (String.mk m)
      | none => none

/-! ### `extractUnit` -/

/-- One entry of the `unitPatterns` rule table. -/
structure UnitRule where
  pattern : RE
  unit : String

/-- The `unitPatterns` table of `extractUnit`, in source order. -/
def unitPatterns : List UnitRule :=
  [ ⟨reAlts [reSeq [litCI "за", RE.star reWS, litCI "кг"], litCI "/кг", litCI "килограмм"], "кг"⟩,
    ⟨reAlts [reSeq [litCI "за", RE.star reWS, litCI "шт"], litCI "/шт", litCI "штук"], "шт"⟩,
    ⟨reAlts [reSeq [litCI "за", RE.star reWS, litCI "л"], litCI "/л", litCI "литр"], "л"⟩,
    ⟨reAlts [reSeq [litCI "за", RE.star reWS, litCI "г"],
             RE.cat (litCI "/г") (RE.nla fun c => foldCase c == 'р'), litCI "грамм"], "г"⟩,
    ⟨reAlts [reSeq [litCI "за", RE.star reWS, litCI "мл"], litCI "/мл", litCI "миллилитр"], "мл"⟩,
    ⟨reAlts [reSeq [litCI "за", RE.star reWS, litCI "уп"], litCI "/уп", litCI "упаковк"], "уп"⟩ ]

/-- `extractUnit`: first rule whose pattern matches; `null` otherwise. -/
def extractUnit (text : String) : Option String :=
  match unitPatterns.find? (fun r => reTest r.pattern text.data) with
  | some r => some r.unit
  | none => none

/-! ### `parseOcrResult` -/

/-- The record returned by `parseOcrResult`. -/
structure ParsedData where
  price : Option ℚ
  originalPrice : Option ℚ
  pricePerUnit : Option ℚ
  currency : String
  currencySymbol : String
  unit : Option String
  barcode : Option String
  isPromo : Bool
  promoType : Option String
  discountPercent : Option ℕ
  rawText : String
deriving DecidableEq

/-- `Math.min(...l)` over a materialised list, `none` when the list is
empty (the JS code only spreads non-empty lists). -/
def mathMin (l : List ℚ) : Option ℚ :=
  match l with
  | [] => none
  | x :: xs => some (xs.foldl min x)

/-- `Math.max(...l)` over a materialised list, `none` when the list is
empty. -/
def mathMax (l : List ℚ) : Option ℚ :=
  match l with
  | [] => none
  | x :: xs => some (xs.foldl max x)

/-- `parseOcrResult`: run the six detectors, then resolve
`price`/`originalPrice` from the sorted candidate list and the promo
flag exactly as the source does. -/
def parseOcrResult (text : String) : ParsedData :=
  let prices := extractPrice text
  let cur := detectCurrency text
  let promo := detectPromo text
  let discountPercent := extractDiscount text
  let barcode := extractBarcode text
  let unit := extractUnit text
  let pq : Option ℚ × Option ℚ :=
    if 2 ≤ prices.length ∧ promo.1 = true then (prices.head?, prices.getLast?)
    else if 1 ≤ prices.length then (prices.head?, none)
    else (none, none)
  let pricePerUnit : Option ℚ := if 1 < prices.length then mathMin prices else none
  { price := pq.1
    originalPrice := pq.2
    pricePerUnit := pricePerUnit
    currency := cur.1
    currencySymbol := cur.2
    unit := unit
    barcode := barcode
    isPromo := promo.1
    promoType := promo.2
    discountPercent := discountPercent
    rawText := text }

/-! ### Product price-history aggregator (`part_006`) -/

/-- One entry of a product's `priceHistory` (the `priceHistorySchema`). -/
structure PricePoint where
  price : ℚ
  originalPrice : Option ℚ
  currency : String
  isPromo : Bool
  store : Option String
  scannedAt : ℤ
deriving DecidableEq

/-- The `Product` document fields the aggregator methods read. -/
structure Product where
  barcode : Option String
  name : String
  unit : Option String
  priceHistory : List PricePoint
deriving DecidableEq

/-- `getCurrentPrice`: last `priceHistory` entry, `null` when empty. -/
def Product.getCurrentPrice (p : Product) : Option PricePoint :=
  if p.priceHistory.length = 0 then none
  else p.priceHistory.getLast?

/-- `getMinPrice`: `Math.min(...priceHistory.map(p => p.price))`,
`null` when empty. -/
def Product.getMinPrice (p : Product) : Option ℚ :=
  if p.priceHistory.length = 0 then none
  else mathMin (p.priceHistory.map (·.price))

/-- `getMaxPrice`: `Math.max(...priceHistory.map(p => p.price))`,
`null` when empty. -/
def Product.getMaxPrice (p : Product) : Option ℚ :=
  if p.priceHistory.length = 0 then none
  else mathMax (p.priceHistory.map (·.price))

/-- `getAvgPrice`: `reduce((acc, p) => acc + p.price, 0)` divided by the
length, `null` when empty. -/
def Product.getAvgPrice (p : Product) : Option ℚ :=
  if p.priceHistory.length = 0 then none
  else some ((p.priceHistory.foldl (fun acc pt => acc + pt.price) (0 : ℚ)) /
    (p.priceHistory.length : ℚ))

/-! ### Helper lemmas -/

theorem foldl_min_le_init {α : Type} [LinearOrder α] :
    ∀ (l : List α) (a : α), l.foldl min a ≤ a
  | [], _ => le_refl _
  | x :: xs, a => le_trans (foldl_min_le_init xs (min a x)) (min_le_left a x)

theorem foldl_max_init_le {α : Type} [LinearOrder α] :
    ∀ (l : List α) (a : α), a ≤ l.foldl max a
  | [], _ => le_refl _
  | x :: xs, a => le_trans (le_max_left a x) (foldl_max_init_le xs (max a x))

theorem foldl_min_le_mem {α : Type} [LinearOrder α] (l : List α) :
    ∀ (a x : α), x ∈ l → l.foldl min a ≤ x := by
  induction l with
  | nil => intro a x hx; cases hx
  | cons y ys ih =>
    intro a x hx
    rcases List.mem_cons.mp hx with rfl | hx
    · exact le_trans (foldl_min_le_init ys (min a x)) (min_le_right a x)
    · exact ih (min a y) x hx

theorem foldl_max_mem_le {α : Type} [LinearOrder α] (l : List α) :
    ∀ (a x : α), x ∈ l → x ≤ l.foldl max a := by
  induction l with
  | nil => intro a x hx; cases hx
  | cons y ys ih =>
    intro a x hx
    rcases List.mem_cons.mp hx with rfl | hx
    · exact le_trans (le_max_right a x) (foldl_max_init_le ys (max a x))
    · exact ih (max a y) x hx

theorem foldl_min_mem {α : Type} [LinearOrder α] (l : List α) :
    ∀ a : α, l.foldl min a = a ∨ l.foldl min a ∈ l := by
  induction l with
  | nil => intro a; exact Or.inl rfl
  | cons y ys ih =>
    intro a
    rw [List.foldl_cons]
    rcases ih (min a y) with h | h
    · rw [h]
      rcases le_total a y with h2 | h2
      · exact Or.inl (min_eq_left h2)
      · exact Or.inr (by rw [min_eq_right h2]; exact List.mem_cons_self y ys)
    · exact Or.inr (List.mem_cons_of_mem y h)

theorem foldl_max_mem {α : Type} [LinearOrder α] (l : List α) :
    ∀ a : α, l.foldl max a = a ∨ l.foldl max a ∈ l := by
  induction l with
  | nil => intro a; exact Or.inl rfl
  | cons y ys ih =>
    intro a
    rw [List.foldl_cons]
    rcases ih (max a y) with h | h
    · rw [h]
      rcases le_total a y with h2 | h2
      · exact Or.inr (by rw [max_eq_right h2]; exact List.mem_cons_self y ys)
      · exact Or.inl (max_eq_left h2)
    · exact Or.inr (List.mem_cons_of_mem y h)

theorem foldl_min_eq_of_le {α : Type} [LinearOrder α] (l : List α) :
    ∀ a : α, (∀ y ∈ l, a ≤ y) → l.foldl min a = a := by
  induction l with
  | nil => intro a _; rfl
  | cons y ys ih =>
    intro a h
    rw [List.foldl_cons, min_eq_left (h y (List.mem_cons_self y ys))]
    exact ih a fun z hz => h z (List.mem_cons_of_mem y hz)

theorem mathMin_le_mem {l : List ℚ} {m x : ℚ} (hm : mathMin l = some m) (hx : x ∈ l) :
    m ≤ x := by
  cases l with
  | nil => cases hx
  | cons y ys =>
    simp only [mathMin, Option.some.injEq] at hm
    subst hm
    rcases List.mem_cons.mp hx with rfl | hx
    · exact foldl_min_le_init ys x
    · exact foldl_min_le_mem ys y x hx

theorem mem_le_mathMax {l : List ℚ} {m x : ℚ} (hm : mathMax l = some m) (hx : x ∈ l) :
    x ≤ m := by
  cases l with
  | nil => cases hx
  | cons y ys =>
    simp only [mathMax, Option.some.injEq] at hm
    subst hm
    rcases List.mem_cons.mp hx with rfl | hx
    · exact foldl_max_init_le ys x
    · exact foldl_max_mem_le ys y x hx

theorem mathMin_eq_head?_of_sorted {l : List ℚ} (h : l.Sorted (· ≤ ·)) :
    mathMin l = l.head? := by
  cases l with
  | nil => rfl
  | cons x xs =>
    simp only [mathMin, List.head?_cons, Option.some.injEq]
    exact foldl_min_eq_of_le xs x (List.sorted_cons.mp h).1

theorem mathMax_eq_getLast?_of_sorted {l : List ℚ} (h : l.Sorted (· ≤ ·)) :
    mathMax l = l.getLast? := by
  induction l with
  | nil => rfl
  | cons x xs ih =>
    cases xs with
    | nil => rfl
    | cons y ys =>
      have hs := List.sorted_cons.mp h
      have hxy : x ≤ y := hs.1 y (List.mem_cons_self y ys)
      have hih := ih hs.2
      simp only [mathMax, List.foldl_cons, Option.some.injEq] at hih ⊢
      rw [List.getLast?_cons_cons, ← hih]
      simp only [mathMax, List.foldl_cons, Option.some.injEq]
      rw [max_eq_right hxy]

theorem mem_of_getLast? {α : Type} : ∀ {l : List α} {x : α}, l.getLast? = some x → x ∈ l := by
  intro l
  induction l with
  | nil => intro x h; cases h
  | cons a t ih =>
    intro x h
    cases t with
    | nil =>
      simp only [List.getLast?_singleton, Option.some.injEq] at h
      subst h
      exact List.mem_cons_self a []
    | cons b t2 =>
      rw [List.getLast?_cons_cons] at h
      exact List.mem_cons_of_mem a (ih h)

theorem sorted_head?_le {l : List ℚ} (h : l.Sorted (· ≤ ·)) {p x : ℚ}
    (hp : l.head? = some p) (hx : x ∈ l) : p ≤ x := by
  cases l with
  | nil => cases hx
  | cons a t =>
    simp only [List.head?_cons, Option.some.injEq] at hp
    subst hp
    rcases List.mem_cons.mp hx with rfl | hx
    · exact le_refl _
    · exact (List.sorted_cons.mp h).1 x hx

theorem foldl_add_le_mul : ∀ (l : List ℚ) (a c : ℚ), (∀ x ∈ l, x ≤ c) →
    l.foldl (· + ·) a ≤ a + c * l.length := by
  intro l
  induction l with
  | nil => intro a c _; simp
  | cons x xs ih =>
    intro a c h
    rw [List.foldl_cons, List.length_cons]
    have hx : x ≤ c := h x (List.mem_cons_self x xs)
    have ihh := ih (a + x) c fun y hy => h y (List.mem_cons_of_mem x hy)
    push_cast
    linarith [ihh]

theorem mul_le_foldl_add : ∀ (l : List ℚ) (a c : ℚ), (∀ x ∈ l, c ≤ x) →
    a + c * l.length ≤ l.foldl (· + ·) a := by
  intro l
  induction l with
  | nil => intro a c _; simp
  | cons x xs ih =>
    intro a c h
    rw [List.foldl_cons, List.length_cons]
    have hx : c ≤ x := h x (List.mem_cons_self x xs)
    have ihh := ih (a + x) c fun y hy => h y (List.mem_cons_of_mem x hy)
    push_cast
    linarith [ihh]

/-- The `price`/`originalPrice` pair of `parseOcrResult`, read off the
definition. -/
theorem parseOcrResult_price_def (text : String) :
    (parseOcrResult text).price =
      (if 2 ≤ (extractPrice text).length ∧ (detectPromo text).1 = true
          then ((extractPrice text).head?, (extractPrice text).getLast?)
        else if 1 ≤ (extractPrice text).length then ((extractPrice text).head?, none)
        else ((none : Option ℚ), (none : Option ℚ))).1 := rfl

theorem parseOcrResult_originalPrice_def (text : String) :
    (parseOcrResult text).originalPrice =
      (if 2 ≤ (extractPrice text).length ∧ (detectPromo text).1 = true
          then ((extractPrice text).head?, (extractPrice text).getLast?)
        else if 1 ≤ (extractPrice text).length then ((extractPrice text).head?, none)
        else ((none : Option ℚ), (none : Option ℚ))).2 := rfl

theorem parseOcrResult_isPromo_def (text : String) :
    (parseOcrResult text).isPromo = (detectPromo text).1 := rfl

theorem extractPrice_sorted (text : String) : (extractPrice text).Sorted (· ≤ ·) :=
  List.sorted_insertionSort (· ≤ ·) (priceCandidates text).dedup

theorem mem_extractPrice {text : String} {x : ℚ} (hx : x ∈ extractPrice text) :
    x ∈ priceCandidates text :=
  List.mem_dedup.mp ((List.perm_insertionSort (· ≤ ·) (priceCandidates text).dedup).mem_iff.mp hx)

theorem mem_priceCandidates_bounds {text : String} {x : ℚ} (hx : x ∈ priceCandidates text) :
    0 < x ∧ x < 1000000 := by
  obtain ⟨pat, _, hmem⟩ := List.mem_flatMap.mp hx
  exact of_decide_eq_true (List.mem_filter.mp hmem).2

/-! ### Claim theorems -/

section ClaimProofs

attribute [local semireducible] Rat.add Rat.mul Rat.inv

/-- C1: for every input text whose candidate extractor yields at least
two candidates and whose promotion detector reports a promotion,
`parseOcrResult` sets `price` to the smallest candidate and
`originalPrice` to the largest candidate, so `originalPrice ≥ price`. -/
theorem parseOcr_promo_price_minmax (text : String)
    (h2 : 2 ≤ (extractPrice text).length) (hp : (detectPromo text).1 = true) :
    (parseOcrResult text).price = mathMin (extractPrice text) ∧
    (parseOcrResult text).originalPrice = mathMax (extractPrice text) ∧
    ∀ p q, (parseOcrResult text).price = some p →
      (parseOcrResult text).originalPrice = some q → p ≤ q := by
  have hsorted := extractPrice_sorted text
  have hcond : 2 ≤ (extractPrice text).length ∧ (detectPromo text).1 = true := ⟨h2, hp⟩
  have hprice : (parseOcrResult text).price = (extractPrice text).head? := by
    rw [parseOcrResult_price_def, if_pos hcond]
  have horig : (parseOcrResult text).originalPrice = (extractPrice text).getLast? := by
    rw [parseOcrResult_originalPrice_def, if_pos hcond]
  refine ⟨?_, ?_, ?_⟩
  · rw [hprice, mathMin_eq_head?_of_sorted hsorted]
  · rw [horig, mathMax_eq_getLast?_of_sorted hsorted]
  · intro p q hpp hqq
    rw [hprice] at hpp
    rw [horig] at hqq
    exact sorted_head?_le hsorted hpp (mem_of_getLast? hqq)

/-- Witness for C1 at a concrete promotional two-price text. -/
theorem parseOcr_promo_price_minmax_witness :
    (parseOcrResult "акция 100 руб 200 руб").price = some 100 ∧
    (parseOcrResult "акция 100 руб 200 руб").originalPrice = some 200 ∧
    (100 : ℚ) ≤ 200 :=
  ⟨(parseOcr_promo_price_minmax "акция 100 руб 200 руб" (by decide) (by decide)).1.trans
      (by decide),
   (parseOcr_promo_price_minmax "акция 100 руб 200 руб" (by decide) (by decide)).2.1.trans
      (by decide),
   (parseOcr_promo_price_minmax "акция 100 руб 200 руб" (by decide) (by decide)).2.2 100 200
     ((parseOcr_promo_price_minmax "акция 100 руб 200 руб" (by decide) (by decide)).1.trans
       (by decide))
     ((parseOcr_promo_price_minmax "акция 100 руб 200 руб" (by decide) (by decide)).2.1.trans
       (by decide))⟩

/-- C2 counterexample: on the milk scenario input the `unit` field is
`none`, not `"л"` as claimed (no unit pattern matches the bare `1л.`). -/
theorem parseOcr_milk_unit_counterexample :
    ¬ (parseOcrResult "Молоко 2.5% 1л. Цена: 89.90 руб").unit = some "л" := by decide

/-- C2 amended: on input `"Молоко 2.5% 1л. Цена: 89.90 руб"`,
`parseOcrResult` returns `price = 89.90`, `currency = "RUB"`,
`currencySymbol = "₽"`, `unit = null`, `isPromo = false`,
`barcode = null`. -/
theorem parseOcr_milk_scenario_amended :
    (parseOcrResult "Молоко 2.5% 1л. Цена: 89.90 руб").price = some (899 / 10) ∧
    (parseOcrResult "Молоко 2.5% 1л. Цена: 89.90 руб").currency = "RUB" ∧
    (parseOcrResult "Молоко 2.5% 1л. Цена: 89.90 руб").currencySymbol = "₽" ∧
    (parseOcrResult "Молоко 2.5% 1л. Цена: 89.90 руб").unit = none ∧
    (parseOcrResult "Молоко 2.5% 1л. Цена: 89.90 руб").isPromo = false ∧
    (parseOcrResult "Молоко 2.5% 1л. Цена: 89.90 руб").barcode = none := by decide

/-- C3: `extractPrice` always returns a duplicate-free ascending-sorted
sequence of values in the open interval `(0, 1000000)`, and returns the
empty sequence when no pattern produced a candidate. -/
theorem extractPrice_sorted_nodup_bounded (text : String) :
    (extractPrice text).Sorted (· ≤ ·) ∧ (extractPrice text).Nodup ∧
    (∀ x, x ∈ extractPrice text → 0 < x ∧ x < 1000000) ∧
    ((∀ pat ∈ pricePatterns, gExec pat text.data = []) → extractPrice text = []) := by
  refine ⟨extractPrice_sorted text, ?_, ?_, ?_⟩
  · exact (List.perm_insertionSort (· ≤ ·) (priceCandidates text).dedup).symm.nodup
      (List.nodup_dedup (priceCandidates text))
  · intro x hx
    exact mem_priceCandidates_bounds (mem_extractPrice hx)
  · intro h
    have hc : priceCandidates text = [] := by
      rw [List.eq_nil_iff_forall_not_mem]
      intro x hx
      obtain ⟨pat, hpat, hmem⟩ := List.mem_flatMap.mp hx
      rw [h pat hpat] at hmem
      simp at hmem
    unfold extractPrice
    rw [hc]
    rfl

/-- Witness for C3: the bound instantiated at a member of a concrete
result, and the empty case at a concrete candidate-free text. -/
theorem extractPrice_sorted_nodup_bounded_witness :
    ((0 : ℚ) < 5 ∧ (5 : ℚ) < 1000000) ∧ extractPrice "привет" = [] :=
  ⟨(extractPrice_sorted_nodup_bounded "цена: 5").2.2.1 5 (by decide),
   (extractPrice_sorted_nodup_bounded "привет").2.2.2 (by decide)⟩

/-- C4: `originalPrice` is non-null only when `isPromo` holds and at
least two distinct candidates existed; whenever `price` is null,
`originalPrice` is null. -/
theorem parseOcr_originalPrice_invariant (text : String) :
    ((parseOcrResult text).price = none → (parseOcrResult text).originalPrice = none) ∧
    ((parseOcrResult text).originalPrice.isSome = true →
      (parseOcrResult text).isPromo = true ∧ 2 ≤ (extractPrice text).length) := by
  by_cases h1 : 2 ≤ (extractPrice text).length ∧ (detectPromo text).1 = true
  · have hprice : (parseOcrResult text).price = (extractPrice text).head? := by
      rw [parseOcrResult_price_def, if_pos h1]
    obtain ⟨x, xs, hl⟩ : ∃ x xs, extractPrice text = x :: xs := by
      cases hll : extractPrice text with
      | nil => rw [hll] at h1; cases h1.1
      | cons a b => exact ⟨a, b, rfl⟩
    constructor
    · intro hp
      rw [hprice, hl] at hp
      cases hp
    · intro _
      exact ⟨(parseOcrResult_isPromo_def text).trans h1.2, h1.1⟩
  · have horig : (parseOcrResult text).originalPrice = none := by
      by_cases h2 : 1 ≤ (extractPrice text).length
      · rw [parseOcrResult_originalPrice_def, if_neg h1, if_pos h2]
      · rw [parseOcrResult_originalPrice_def, if_neg h1, if_neg h2]
    exact ⟨fun _ => horig, fun hs => absurd (horig ▸ hs) (by simp)⟩

/-- Witness for C4 at concrete inputs: a promotional two-price text for
the `originalPrice`-is-set direction, and the empty text for the
null-propagation direction. -/
theorem parseOcr_originalPrice_invariant_witness :
    ((parseOcrResult "акция 100 руб 200 руб").isPromo = true ∧
      2 ≤ (extractPrice "акция 100 руб 200 руб").length) ∧
    (parseOcrResult "").originalPrice = none :=
  ⟨(parseOcr_originalPrice_invariant "акция 100 руб 200 руб").2 (by decide),
   (parseOcr_originalPrice_invariant "").1 (by decide)⟩

/-- C5: on an empty history all four aggregator methods return null; on
a non-empty history they all return a value, and
`getMinPrice ≤ getAvgPrice ≤ getMaxPrice`. -/
theorem aggregator_laws (prod : Product) :
    (prod.priceHistory = [] →
      prod.getCurrentPrice = none ∧ prod.getMinPrice = none ∧
      prod.getMaxPrice = none ∧ prod.getAvgPrice = none) ∧
    (prod.priceHistory ≠ [] →
      prod.getMinPrice.isSome = true ∧ prod.getAvgPrice.isSome = true ∧
      prod.getMaxPrice.isSome = true ∧
      ∀ mn av mx, prod.getMinPrice = some mn → prod.getAvgPrice = some av →
        prod.getMaxPrice = some mx → mn ≤ av ∧ av ≤ mx) := by
  constructor
  · intro h
    have h0 : prod.priceHistory.length = 0 := by rw [h]; rfl
    exact ⟨by rw [Product.getCurrentPrice, if_pos h0],
           by rw [Product.getMinPrice, if_pos h0],
           by rw [Product.getMaxPrice, if_pos h0],
           by rw [Product.getAvgPrice, if_pos h0]⟩
  · intro h
    have h0 : ¬ prod.priceHistory.length = 0 := fun hh => h (List.length_eq_zero.mp hh)
    obtain ⟨pt, rest, hl⟩ : ∃ pt rest, prod.priceHistory = pt :: rest := by
      cases hc : prod.priceHistory with
      | nil => exact absurd hc h
      | cons a b => exact ⟨a, b, rfl⟩
    have hmin : prod.getMinPrice = mathMin (prod.priceHistory.map (·.price)) := by
      rw [Product.getMinPrice, if_neg h0]
    have hmax : prod.getMaxPrice = mathMax (prod.priceHistory.map (·.price)) := by
      rw [Product.getMaxPrice, if_neg h0]
    have havg : prod.getAvgPrice =
        some ((prod.priceHistory.foldl (fun acc pt => acc + pt.price) (0 : ℚ)) /
          (prod.priceHistory.length : ℚ)) := by
      rw [Product.getAvgPrice, if_neg h0]
    refine ⟨?_, ?_, ?_, ?_⟩
    · rw [hmin, hl]; rfl
    · rw [havg]; rfl
    · rw [hmax, hl]; rfl
    · intro mn av mx hmn hav hmx
      rw [hmin] at hmn
      rw [hmax] at hmx
      rw [havg] at hav
      have hS : prod.priceHistory.foldl (fun acc pt => acc + pt.price) (0 : ℚ) =
          (prod.priceHistory.map (·.price)).foldl (· + ·) (0 : ℚ) := by
        rw [List.foldl_map]
      have hn : (0 : ℚ) < prod.priceHistory.length := by
        have hpos : 0 < prod.priceHistory.length := List.length_pos.mpr h
        exact_mod_cast hpos
      have hlen : ((prod.priceHistory.map (·.price)).length : ℚ) =
          (prod.priceHistory.length : ℚ) := by rw [List.length_map]
      have hub := foldl_add_le_mul (prod.priceHistory.map (·.price)) 0 mx
        (fun x hx => mem_le_mathMax hmx hx)
      have hlb := mul_le_foldl_add (prod.priceHistory.map (·.price)) 0 mn
        (fun x hx => mathMin_le_mem hmn hx)
      rw [hlen] at hub hlb
      injection hav with hav
      subst hav
      rw [hS]
      constructor
      · rw [le_div_iff₀ hn]
        linarith [hlb]
      · rw [div_le_iff₀ hn]
        linarith [hub]

/-- A concrete two-point product history used as the C5 witness input. -/
def prodTwoPoints : Product :=
  { barcode := none, name := "товар", unit := none,
    priceHistory :=
      [ { price := 10, originalPrice := none, currency := "RUB", isPromo := false,
          store := none, scannedAt := 0 },
        { price := 20, originalPrice := none, currency := "RUB", isPromo := false,
          store := none, scannedAt := 1 } ] }

/-- Witness for C5 at a concrete two-point history. -/
theorem aggregator_laws_witness :
    (10 : ℚ) ≤ 15 ∧ (15 : ℚ) ≤ 20 :=
  ((aggregator_laws prodTwoPoints).2 (by decide)).2.2.2 10 15 20
    (by decide) (by decide) (by decide)

/-- C6: `extractDiscount` returns the maximum of the matched percent
values lying in `[1, 99]` (null when none qualifies), so any non-null
result lies in `[1, 99]`. -/
theorem extractDiscount_max_range (text : String) :
    (parseOcrResult text).discountPercent = extractDiscount text ∧
    (discountCandidates text = [] → extractDiscount text = none) ∧
    (discountCandidates text ≠ [] → (extractDiscount text).isSome = true) ∧
    (∀ d, extractDiscount text = some d →
      (d ∈ discountCandidates text ∧ ∀ x ∈ discountCandidates text, x ≤ d) ∧
      1 ≤ d ∧ d ≤ 99) := by
  refine ⟨rfl, ?_, ?_, ?_⟩
  · intro h
    unfold extractDiscount
    rw [h]
  · intro h
    unfold extractDiscount
    cases hc : discountCandidates text with
    | nil => exact absurd hc h
    | cons a as => rfl
  · intro d hd
    unfold extractDiscount at hd
    cases hc : discountCandidates text with
    | nil => rw [hc] at hd; cases hd
    | cons a as =>
      rw [hc] at hd
      injection hd with hd
      subst hd
      have hmem : as.foldl max a ∈ a :: as := by
        rcases foldl_max_mem as a with h | h
        · rw [h]; exact List.mem_cons_self a as
        · exact List.mem_cons_of_mem a h
      have hbound : ∀ x ∈ a :: as, x ≤ as.foldl max a := by
        intro x hx
        rcases List.mem_cons.mp hx with rfl | hx
        · exact foldl_max_init_le as x
        · exact foldl_max_mem_le as a x hx
      have hmem2 : as.foldl max a ∈ discountCandidates text := by rw [hc]; exact hmem
      have hin : 0 < as.foldl max a ∧ as.foldl max a ≤ 99 :=
        of_decide_eq_true (List.mem_filter.mp hmem2).2
      exact ⟨⟨hmem, hbound⟩, hin.1, hin.2⟩

/-- Witness for C6 at a concrete two-percent text. -/
theorem extractDiscount_max_range_witness :
    ((20 ∈ discountCandidates "скидка 5% или 20%" ∧
      ∀ x ∈ discountCandidates "скидка 5% или 20%", x ≤ 20) ∧
     1 ≤ 20 ∧ 20 ≤ 99) ∧
    extractDiscount "привет" = none :=
  ⟨(extractDiscount_max_range "скидка 5% или 20%").2.2.2 20 (by decide),
   (extractDiscount_max_range "привет").2.1 (by decide)⟩

/-- C7: `extractBarcode` tries the 13-digit pattern, then the 8-digit
pattern, then the 12-digit pattern, returning the first match and null
when none matches. -/
theorem extractBarcode_priority (text : String) :
    ((matchCapture ean13Re text.data).isSome = true →
      extractBarcode text = (matchCapture ean13Re text.data).map String.mk) ∧
    (matchCapture ean13Re text.data = none →
      (matchCapture ean8Re text.data).isSome = true →
      extractBarcode text = (matchCapture ean8Re text.data).map String.mk) ∧
    (matchCapture ean13Re text.data = none → matchCapture ean8Re text.data = none →
      extractBarcode text = (matchCapture upcRe text.data).map String.mk) := by
  refine ⟨?_, ?_, ?_⟩
  · intro h
    unfold extractBarcode
    cases h13 : matchCapture ean13Re text.data with
    | none => rw [h13] at h; cases h
    | some m => simp [h13]
  · intro h13 h8
    unfold extractBarcode
    rw [h13]
    cases hc : matchCapture ean8Re text.data with
    | none => rw [hc] at h8; cases h8
    | some m => simp [hc]
  · intro h13 h8
    unfold extractBarcode
    rw [h13, h8]
    cases hc : matchCapture upcRe text.data <;> simp [hc]

/-- Witness for C7: a text holding both a 13- and an 8-digit run yields
the 13-digit barcode. -/
theorem extractBarcode_priority_witness :
    extractBarcode "4607025392244 12345678" =
      (matchCapture ean13Re "4607025392244 12345678".data).map String.mk ∧
    extractBarcode "4607025392244 12345678" = some "4607025392244" :=
  ⟨(extractBarcode_priority "4607025392244 12345678").1 (by decide), by decide⟩

/-- C8: on the empty string `parseOcrResult` returns the all-default
record: every nullable field null, `currency = "RUB"`,
`currencySymbol = "₽"`, `isPromo = false`. -/
theorem parseOcr_empty_default :
    parseOcrResult "" =
      { price := none, originalPrice := none, pricePerUnit := none,
        currency := "RUB", currencySymbol := "₽", unit := none, barcode := none,
        isPromo := false, promoType := none, discountPercent := none,
        rawText := "" } := by decide

/-- C9: a bare percent such as `"10%"` yields a non-null
`discountPercent` while `isPromo` stays false. -/
theorem parseOcr_discount_without_promo :
    (parseOcrResult "10%").discountPercent = some 10 ∧
    (parseOcrResult "10%").isPromo = false := by decide

/-- C10: on a non-empty history the current (last) entry's price lies
between `getMinPrice` and `getMaxPrice`. -/
theorem aggregator_current_between_min_max (prod : Product)
    (h : prod.priceHistory ≠ []) :
    ∀ cur mn mx, prod.getCurrentPrice = some cur → prod.getMinPrice = some mn →
      prod.getMaxPrice = some mx → mn ≤ cur.price ∧ cur.price ≤ mx := by
  intro cur mn mx hcur hmn hmx
  have h0 : ¬ prod.priceHistory.length = 0 := fun hh => h (List.length_eq_zero.mp hh)
  rw [Product.getCurrentPrice, if_neg h0] at hcur
  have hcmem : cur ∈ prod.priceHistory := mem_of_getLast? hcur
  have hpmem : cur.price ∈ prod.priceHistory.map (·.price) :=
    List.mem_map_of_mem (·.price) hcmem
  rw [Product.getMinPrice, if_neg h0] at hmn
  rw [Product.getMaxPrice, if_neg h0] at hmx
  exact ⟨mathMin_le_mem hmn hpmem, mem_le_mathMax hmx hpmem⟩

/-- A concrete three-point product history used as the C10 witness
input. -/
def prodThreePoints : Product :=
  { barcode := none, name := "товар", unit := none,
    priceHistory :=
      [ { price := 30, originalPrice := none, currency := "RUB", isPromo := false,
          store := none, scannedAt := 0 },
        { price := 10, originalPrice := none, currency := "RUB", isPromo := false,
          store := none, scannedAt := 1 },
        { price := 20, originalPrice := none, currency := "RUB", isPromo := false,
          store := none, scannedAt := 2 } ] } 

/-- Witness for C10 at a concrete three-point history. -/
theorem aggregator_current_between_min_max_witness :
    (10 : ℚ) ≤ 20 ∧ (20 : ℚ) ≤ 30 := by
  have h := aggregator_current_between_min_max prodThreePoints (by decide)
    (prodThreePoints.priceHistory.get ⟨2, by decide⟩) 10 30 (by decide) (by decide) (by decide)
  exact h

end ClaimProofs
